import Mathlib

/-!
Verification of the sharded-optimizer coordination engine (`fairscale/optim/oss.py`)
against its specification.

The development shallowly embeds the relevant Python code as executable Lean
functions:

* `partition_parameters` — the greedy parameter partitioner (`OSS.partition_parameters`);
* `rankPass` / `broadcast_params` — the bucketed broadcast pass (`OSS._broadcast_params`),
  including the event trace of issued requests, waits and unpacks;
* `state_dict` / `rank_local_state_dict` — checkpoint consolidation (`OSS.state_dict`,
  `OSS.rank_local_state_dict`);
* `free_other_grads` — gradient discarding before the local step (`OSS._free_other_grads`).

Parameters are modelled by an identity (`pid`, standing in for Python reference
identity) together with their element count (`numel`). Hyperparameters of a
parameter group are an opaque value of an arbitrary type `H`, matching the
shallow copy performed by the source.
-/

/-- A model of a `torch` parameter tensor: `pid` is its identity (reference
identity in Python), `numel` its element count. -/
structure Param where
  pid : Nat
  numel : Nat
deriving DecidableEq, Repr

/-- A parameter group: an ordered list of parameters plus its hyperparameters
(everything stored under non-`"params"` keys), kept opaque as one value of `H`. -/
structure ParamGroup (H : Type) where
  params : List Param
  hyper : H
deriving DecidableEq, Repr

/-- Python's `min(sizes)` on a list of numbers (meaningful for nonempty lists). -/
def listMin : List Nat → Nat
  | [] => 0
  | h :: t => t.foldl min h

/-- Python's `sizes.index(min(sizes))`: the first index holding the minimum. -/
def idxMin (sizes : List Nat) : Nat := sizes.indexOf (listMin sizes)

/-- One iteration of the inner loop of `OSS.partition_parameters`
(oss.py lines 122-126): pick the rank with the smallest running size,
append the parameter to that rank's list, add its element count. -/
def assignParam (st : List Nat × List (List Param)) (p : Param) :
    List Nat × List (List Param) :=
  let rank := idxMin st.1
  (st.1.set rank (st.1.getD rank 0 + p.numel),
   st.2.set rank (st.2.getD rank [] ++ [p]))

/-- The per-group loop of `OSS.partition_parameters`: fresh empty per-rank
param lists, sizes carried in from previous groups. -/
def partitionGroup (ws : Nat) (sizes : List Nat) (params : List Param) :
    List Nat × List (List Param) :=
  params.foldl assignParam (sizes, List.replicate ws [])

/-- Processing of one global param group (oss.py lines 120-131): distribute its
params, then append one per-rank group record (shallow copy of the group with
`params` replaced) to every rank's partition. -/
def partitionStep {H : Type} (ws : Nat)
    (acc : List Nat × List (List (ParamGroup H))) (g : ParamGroup H) :
    List Nat × List (List (ParamGroup H)) :=
  let res := partitionGroup ws acc.1 g.params
  (res.1, List.zipWith (fun pgs ps => pgs ++ [⟨ps, g.hyper⟩]) acc.2 res.2)

/-- `OSS.partition_parameters` with the running sizes exposed: starts from
`world_size` zero sizes and `world_size` empty partitions, folds over the
global param groups. -/
def partitionFull {H : Type} (ws : Nat) (groups : List (ParamGroup H)) :
    List Nat × List (List (ParamGroup H)) :=
  groups.foldl (partitionStep ws) (List.replicate ws 0, List.replicate ws [])

/-- `OSS.partition_parameters` (oss.py lines 109-133): element `r` of the result
is the list of per-rank group records for rank `r`. -/
def partition_parameters {H : Type} (ws : Nat) (groups : List (ParamGroup H)) :
    List (List (ParamGroup H)) :=
  (partitionFull ws groups).2

/-- The params of the record for global group index `g` in one rank's partition
(empty when out of range). -/
def groupParamsAt {H : Type} (pgs : List (ParamGroup H)) (g : Nat) : List Param :=
  ((pgs.get? g).map ParamGroup.params).getD []

/-- All parameters of all global groups, in traversal order. -/
def allParams {H : Type} (groups : List (ParamGroup H)) : List Param :=
  (groups.map ParamGroup.params).flatten

example :
    partition_parameters 2 [ParamGroup.mk [⟨0, 10⟩, ⟨1, 1⟩, ⟨2, 1⟩] 7] =
      [[⟨[⟨0, 10⟩], 7⟩], [⟨[⟨1, 1⟩, ⟨2, 1⟩], 7⟩]] := by decide

/-! ### Facts about `listMin` and `idxMin` -/

theorem foldl_min_le_init (t : List Nat) : ∀ h : Nat, t.foldl min h ≤ h := by
  induction t with
  | nil => intro h; exact le_refl h
  | cons x xs ih => intro h; exact le_trans (ih (min h x)) (min_le_left h x)

theorem foldl_min_le_mem (t : List Nat) : ∀ (h : Nat), ∀ x ∈ t, t.foldl min h ≤ x := by
  induction t with
  | nil => intro h x hx; cases hx
  | cons y ys ih =>
    intro h x hx
    rcases List.mem_cons.mp hx with rfl | hx
    · exact le_trans (foldl_min_le_init ys (min h x)) (min_le_right h x)
    · exact ih (min h y) x hx

theorem foldl_min_mem (t : List Nat) : ∀ h : Nat, t.foldl min h = h ∨ t.foldl min h ∈ t := by
  induction t with
  | nil => intro h; exact Or.inl rfl
  | cons y ys ih =>
    intro h
    rw [List.foldl_cons]
    rcases ih (min h y) with heq | hmem
    · rw [heq]
      rcases le_total h y with hle | hle
      · exact Or.inl (min_eq_left hle)
      · exact Or.inr (by rw [min_eq_right hle]; exact List.mem_cons_self y ys)
    · exact Or.inr (List.mem_cons_of_mem y hmem)

theorem listMin_le {l : List Nat} : ∀ x ∈ l, listMin l ≤ x := by
  cases l with
  | nil => intro x hx; cases hx
  | cons h t =>
    intro x hx
    rcases List.mem_cons.mp hx with rfl | hx
    · exact foldl_min_le_init t x
    · exact foldl_min_le_mem t h x hx

theorem listMin_mem {l : List Nat} (hl : l ≠ []) : listMin l ∈ l := by
  cases l with
  | nil => exact absurd rfl hl
  | cons h t =>
    rcases foldl_min_mem t h with heq | hmem
    · rw [show listMin (h :: t) = t.foldl min h from rfl, heq]
      exact List.mem_cons_self h t
    · exact List.mem_cons_of_mem h hmem

theorem idxMin_lt {l : List Nat} (hl : l ≠ []) : idxMin l < l.length :=
  List.indexOf_lt_length.mpr (listMin_mem hl)

theorem getD_idxMin {l : List Nat} (hl : l ≠ []) : l.getD (idxMin l) 0 = listMin l := by
  rw [List.getD_eq_getElem _ _ (idxMin_lt hl)]
  exact List.getElem_indexOf (idxMin_lt hl)

theorem getD_ne_of_lt_indexOf {l : List Nat} {a : Nat} :
    ∀ q, q < l.indexOf a → l.getD q 0 ≠ a := by
  induction l with
  | nil => intro q hq; simp [List.indexOf] at hq
  | cons b t ih =>
    intro q hq
    by_cases hb : b = a
    · subst hb; simp [List.indexOf_cons_self] at hq
    · rw [List.indexOf_cons_ne _ hb] at hq
      cases q with
      | zero => simpa using hb
      | succ q => exact ih q (Nat.lt_of_succ_lt_succ hq)

theorem idxMin_first {l : List Nat} : ∀ q, q < idxMin l → listMin l < l.getD q 0 := by
  intro q hq
  have hlen : q < l.length := lt_of_lt_of_le hq (List.indexOf_le_length)
  have hne : l.getD q 0 ≠ listMin l := getD_ne_of_lt_indexOf q hq
  have hmem : l.getD q 0 ∈ l := by
    rw [List.getD_eq_getElem _ _ hlen]; exact List.getElem_mem hlen
  exact lt_of_le_of_ne (listMin_le _ hmem) (Ne.symm hne)

/-! ### Invariants of the inner partition loop -/

/-- Total element count of a list of parameters. -/
def listTotal (ps : List Param) : Nat := (ps.map Param.numel).sum

theorem getD_set_self {α : Type} {l : List α} {r : Nat} (hr : r < l.length) (v d : α) :
    (l.set r v).getD r d = v := by
  rw [List.getD_eq_getD_get?, List.get?_eq_getElem?, List.getElem?_set_self hr]
  rfl

theorem getD_set_ne {α : Type} {l : List α} {r q : Nat} (h : r ≠ q) (v d : α) :
    (l.set r v).getD q d = l.getD q d := by
  rw [List.getD_eq_getD_get?, List.getD_eq_getD_get?, List.get?_eq_getElem?,
    List.get?_eq_getElem?, List.getElem?_set_ne h]

theorem flatten_set_append_perm {α : Type} :
    ∀ (lists : List (List α)) (r : Nat), r < lists.length → ∀ (p : α),
      ((lists.set r (lists.getD r [] ++ [p])).flatten).Perm (p :: lists.flatten) := by
  intro lists
  induction lists with
  | nil => intro r hr; simp at hr
  | cons l0 rest ih =>
    intro r hr p
    cases r with
    | zero =>
      simp only [List.getD_cons_zero, List.set_cons_zero, List.flatten_cons]
      rw [List.append_assoc]
      exact List.perm_middle
    | succ r =>
      simp only [List.getD_cons_succ, List.set_cons_succ, List.flatten_cons]
      have h1 := ih r (by simpa using Nat.lt_of_succ_lt_succ hr) p
      exact (h1.append_left l0).trans List.perm_middle

theorem foldl_assignParam_inv (ws : Nat) (hws : 0 < ws) :
    ∀ (params : List Param) (sizes : List Nat) (lists : List (List Param)),
      sizes.length = ws → lists.length = ws →
      (params.foldl assignParam (sizes, lists)).1.length = ws ∧
      (params.foldl assignParam (sizes, lists)).2.length = ws ∧
      ((params.foldl assignParam (sizes, lists)).2.flatten).Perm (params ++ lists.flatten) := by
  intro params
  induction params with
  | nil => intro sizes lists hs hl; exact ⟨hs, hl, by simp⟩
  | cons p ps ih =>
    intro sizes lists hs hl
    rw [List.foldl_cons]
    have hsne : sizes ≠ [] := by
      intro h; rw [h] at hs; simp at hs; omega
    have hr : idxMin sizes < ws := hs ▸ idxMin_lt hsne
    have hs' : (assignParam (sizes, lists) p).1.length = ws := by
      simp [assignParam, hs]
    have hl' : (assignParam (sizes, lists) p).2.length = ws := by
      simp [assignParam, hl]
    obtain ⟨h1, h2, h3⟩ := ih _ _ hs' hl'
    refine ⟨h1, h2, ?_⟩
    have hperm : ((assignParam (sizes, lists) p).2.flatten).Perm (p :: lists.flatten) := by
      simp only [assignParam]
      exact flatten_set_append_perm lists (idxMin sizes) (by omega) p
    exact h3.trans ((hperm.append_left ps).trans List.perm_middle)

theorem foldl_assignParam_corr (ws : Nat) (hws : 0 < ws) (base : List Nat) :
    ∀ (params : List Param) (sizes : List Nat) (lists : List (List Param)),
      sizes.length = ws → lists.length = ws →
      (∀ q, q < ws → sizes.getD q 0 = base.getD q 0 + listTotal (lists.getD q [])) →
      ∀ q, q < ws →
        (params.foldl assignParam (sizes, lists)).1.getD q 0 =
          base.getD q 0 + listTotal ((params.foldl assignParam (sizes, lists)).2.getD q []) := by
  intro params
  induction params with
  | nil => intro sizes lists _ _ hinv q hq; exact hinv q hq
  | cons p ps ih =>
    intro sizes lists hs hl hinv q hq
    rw [List.foldl_cons]
    have hsne : sizes ≠ [] := by
      intro h; rw [h] at hs; simp at hs; omega
    have hrs : idxMin sizes < sizes.length := idxMin_lt hsne
    have hrl : idxMin sizes < lists.length := by rw [hl, ← hs]; exact hrs
    refine ih _ _ (by simp [assignParam, hs]) (by simp [assignParam, hl]) ?_ q hq
    intro q' hq'
    by_cases hqr : idxMin sizes = q'
    · subst hqr
      simp only [assignParam]
      rw [getD_set_self hrs, getD_set_self hrl]
      have hbase := hinv _ (by rw [← hs]; exact hrs)
      have hT : listTotal (lists.getD (idxMin sizes) [] ++ [p]) =
          listTotal (lists.getD (idxMin sizes) []) + p.numel := by
        simp [listTotal]
      omega
    · simp only [assignParam]
      rw [getD_set_ne hqr, getD_set_ne hqr]
      exact hinv q' hq'

theorem foldl_assignParam_balance (ws : Nat) (hws : 0 < ws) (L : Nat) :
    ∀ (params : List Param) (sizes : List Nat) (lists : List (List Param)),
      sizes.length = ws → lists.length = ws →
      (∀ p ∈ params, p.numel ≤ L) →
      (∀ a ∈ sizes, ∀ b ∈ sizes, a ≤ L + b) →
      ∀ a ∈ (params.foldl assignParam (sizes, lists)).1,
        ∀ b ∈ (params.foldl assignParam (sizes, lists)).1, a ≤ L + b := by
  intro params
  induction params with
  | nil => intro sizes lists _ _ _ hbal; exact hbal
  | cons p ps ih =>
    intro sizes lists hs hl hnum hbal
    rw [List.foldl_cons]
    refine ih _ _ (by simp [assignParam, hs]) (by simp [assignParam, hl])
      (fun q hq => hnum q (List.mem_cons_of_mem _ hq)) ?_
    intro a ha b hb
    have hsne : sizes ≠ [] := by
      intro h; rw [h] at hs; simp at hs; omega
    have hmin_mem : listMin sizes ∈ sizes := listMin_mem hsne
    have hnump : p.numel ≤ L := hnum p (List.mem_cons_self _ _)
    simp only [assignParam] at ha hb
    rw [getD_idxMin hsne] at ha hb
    rcases List.mem_or_eq_of_mem_set ha with ha' | ha'
    · rcases List.mem_or_eq_of_mem_set hb with hb' | hb'
      · exact hbal a ha' b hb'
      · subst hb'
        have := hbal a ha' (listMin sizes) hmin_mem
        omega
    · subst ha'
      rcases List.mem_or_eq_of_mem_set hb with hb' | hb'
      · have := listMin_le b hb'
        omega
      · subst hb'
        omega

/-! ### Invariants of the outer partition loop -/

theorem getD_zipWith {α β γ : Type} (f : α → β → γ) (l₁ : List α) (l₂ : List β)
    (d₁ : α) (d₂ : β) (d₃ : γ) (r : Nat) (hr1 : r < l₁.length) (hr2 : r < l₂.length) :
    (List.zipWith f l₁ l₂).getD r d₃ = f (l₁.getD r d₁) (l₂.getD r d₂) := by
  rw [List.getD_eq_getD_get?, List.get?_eq_getElem?, List.getElem?_zipWith',
    List.getElem?_eq_getElem hr1, List.getElem?_eq_getElem hr2,
    List.getD_eq_getElem _ _ hr1, List.getD_eq_getElem _ _ hr2]
  rfl

theorem partitionFold_main {H : Type} (ws : Nat) (hws : 0 < ws) :
    ∀ (groups : List (ParamGroup H)) (sizes : List Nat)
      (part : List (List (ParamGroup H))) (n : Nat),
    sizes.length = ws → part.length = ws →
    (∀ r, r < ws → (part.getD r []).length = n) →
    (groups.foldl (partitionStep ws) (sizes, part)).1.length = ws ∧
    (groups.foldl (partitionStep ws) (sizes, part)).2.length = ws ∧
    (∀ r, r < ws →
      ((groups.foldl (partitionStep ws) (sizes, part)).2.getD r []).length =
        n + groups.length) ∧
    (∀ g, g < n → ∀ r, r < ws →
      ((groups.foldl (partitionStep ws) (sizes, part)).2.getD r []).get? g =
        (part.getD r []).get? g) ∧
    (∀ i gp, groups.get? i = some gp →
      (((groups.foldl (partitionStep ws) (sizes, part)).2.map
          (fun pgs => groupParamsAt pgs (n + i))).flatten).Perm gp.params ∧
      (∀ r, r < ws →
        ∃ ps, ((groups.foldl (partitionStep ws) (sizes, part)).2.getD r []).get? (n + i) =
          some ⟨ps, gp.hyper⟩)) := by
  intro groups
  induction groups with
  | nil =>
    intro sizes part n hs hp hlen
    refine ⟨hs, hp, ?_, ?_, ?_⟩
    · intro r hr; simpa using hlen r hr
    · intro g _ r _; rfl
    · intro i gp hgp; simp at hgp
  | cons g0 gs ih =>
    intro sizes part n hs hp hlen
    rw [List.foldl_cons]
    have hstep : partitionStep ws (sizes, part) g0 =
        ((partitionGroup ws sizes g0.params).1,
         List.zipWith (fun pgs ps => pgs ++ [⟨ps, g0.hyper⟩]) part
           (partitionGroup ws sizes g0.params).2) := rfl
    rw [hstep]
    obtain ⟨hA1, hA2, hA3⟩ := foldl_assignParam_inv ws hws g0.params sizes
      (List.replicate ws []) hs (List.length_replicate ws [])
    rw [show List.foldl assignParam (sizes, List.replicate ws []) g0.params =
      partitionGroup ws sizes g0.params from rfl] at hA1 hA2 hA3
    have hA3' : ((partitionGroup ws sizes g0.params).2.flatten).Perm g0.params := by
      simpa using hA3
    have hplen : (List.zipWith (fun pgs ps => pgs ++ [⟨ps, g0.hyper⟩]) part
        (partitionGroup ws sizes g0.params).2).length = ws := by
      rw [List.length_zipWith, hp, hA2, Nat.min_self]
    have hgetD : ∀ r, r < ws →
        (List.zipWith (fun pgs ps => pgs ++ [⟨ps, g0.hyper⟩]) part
          (partitionGroup ws sizes g0.params).2).getD r [] =
        part.getD r [] ++ [⟨(partitionGroup ws sizes g0.params).2.getD r [], g0.hyper⟩] := by
      intro r hr
      exact getD_zipWith _ part _ [] [] [] r (by rw [hp]; exact hr) (by rw [hA2]; exact hr)
    have hlen' : ∀ r, r < ws →
        ((List.zipWith (fun pgs ps => pgs ++ [⟨ps, g0.hyper⟩]) part
          (partitionGroup ws sizes g0.params).2).getD r []).length = n + 1 := by
      intro r hr
      rw [hgetD r hr, List.length_append, hlen r hr]
      rfl
    obtain ⟨h1, h2, h3, h4, h5⟩ := ih _ _ (n + 1) hA1 hplen hlen'
    refine ⟨h1, h2, ?_, ?_, ?_⟩
    · intro r hr
      have := h3 r hr
      simp only [List.length_cons]
      omega
    · intro g hg r hr
      rw [h4 g (by omega) r hr, hgetD r hr,
        List.get?_append (by rw [hlen r hr]; exact hg)]
    · intro i gp hgp
      cases i with
      | zero =>
        simp only [List.get?_cons_zero, Option.some.injEq] at hgp
        subst hgp
        have hrec : ∀ r, r < ws →
            ((gs.foldl (partitionStep ws)
              ((partitionGroup ws sizes g0.params).1,
               List.zipWith (fun pgs ps => pgs ++ [⟨ps, g0.hyper⟩]) part
                 (partitionGroup ws sizes g0.params).2)).2.getD r []).get? n =
            some ⟨(partitionGroup ws sizes g0.params).2.getD r [], g0.hyper⟩ := by
          intro r hr
          rw [h4 n (by omega) r hr, hgetD r hr, ← hlen r hr, List.get?_concat_length]
        constructor
        · have hmapeq : (gs.foldl (partitionStep ws)
              ((partitionGroup ws sizes g0.params).1,
               List.zipWith (fun pgs ps => pgs ++ [⟨ps, g0.hyper⟩]) part
                 (partitionGroup ws sizes g0.params).2)).2.map
              (fun pgs => groupParamsAt pgs (n + 0)) =
              (partitionGroup ws sizes g0.params).2 := by
            apply List.ext_getElem?
            intro r
            rcases Nat.lt_or_ge r ws with hr | hr
            · rw [List.getElem?_map, List.getElem?_eq_getElem (by rw [h2]; exact hr),
                List.getElem?_eq_getElem (by rw [hA2]; exact hr)]
              simp only [Option.map_some']
              congr 1
              have h6 := hrec r hr
              rw [List.getD_eq_getElem _ _ (by rw [h2]; exact hr)] at h6
              simp only [Nat.add_zero, groupParamsAt, List.get?_eq_getElem?]
              rw [← List.get?_eq_getElem?, h6]
              rw [List.getD_eq_getElem _ _ (by rw [hA2]; exact hr)]
              rfl
            · rw [List.getElem?_map, List.getElem?_eq_none (by rw [h2]; exact hr),
                List.getElem?_eq_none (by rw [hA2]; exact hr)]
              rfl
          rw [hmapeq]
          exact hA3'
        · intro r hr
          exact ⟨(partitionGroup ws sizes g0.params).2.getD r [],
            by rw [Nat.add_zero]; exact hrec r hr⟩
      | succ i =>
        simp only [List.get?_cons_succ] at hgp
        have h5' := h5 i gp hgp
        have heq : n + 1 + i = n + (i + 1) := by omega
        rw [heq] at h5'
        exact h5'

/-! ### Maximum of a list, largest parameter -/

/-- Python's `max(sizes)` on a list of numbers (meaningful for nonempty lists). -/
def listMax : List Nat → Nat
  | [] => 0
  | h :: t => t.foldl max h

theorem foldl_max_ge_init (t : List Nat) : ∀ h : Nat, h ≤ t.foldl max h := by
  induction t with
  | nil => intro h; exact le_refl h
  | cons x xs ih => intro h; exact le_trans (le_max_left h x) (ih (max h x))

theorem foldl_max_mem (t : List Nat) : ∀ h : Nat, t.foldl max h = h ∨ t.foldl max h ∈ t := by
  induction t with
  | nil => intro h; exact Or.inl rfl
  | cons y ys ih =>
    intro h
    rw [List.foldl_cons]
    rcases ih (max h y) with heq | hmem
    · rw [heq]
      rcases le_total h y with hle | hle
      · exact Or.inr (by rw [max_eq_right hle]; exact List.mem_cons_self y ys)
      · exact Or.inl (max_eq_left hle)
    · exact Or.inr (List.mem_cons_of_mem y hmem)

theorem listMax_mem {l : List Nat} (hl : l ≠ []) : listMax l ∈ l := by
  cases l with
  | nil => exact absurd rfl hl
  | cons h t =>
    rcases foldl_max_mem t h with heq | hmem
    · rw [show listMax (h :: t) = t.foldl max h from rfl, heq]
      exact List.mem_cons_self h t
    · exact List.mem_cons_of_mem h hmem

/-- Sum of element counts over one rank's partition records. -/
def rankTotal {H : Type} (pgs : List (ParamGroup H)) : Nat :=
  (pgs.map (fun pg => listTotal pg.params)).sum

/-- Element count of the single largest parameter of the model. -/
def largestParam {H : Type} (groups : List (ParamGroup H)) : Nat :=
  ((allParams groups).map Param.numel).foldr max 0

theorem le_foldr_max (l : List Nat) : ∀ x ∈ l, x ≤ l.foldr max 0 := by
  induction l with
  | nil => intro x hx; cases hx
  | cons y ys ih =>
    intro x hx
    rcases List.mem_cons.mp hx with rfl | hx
    · exact le_max_left _ _
    · exact le_trans (ih x hx) (le_max_right _ _)

theorem numel_le_largestParam {H : Type} (groups : List (ParamGroup H)) :
    ∀ p ∈ allParams groups, p.numel ≤ largestParam groups := by
  intro p hp
  exact le_foldr_max _ _ (List.mem_map_of_mem Param.numel hp)

theorem getD_replicate_self {α : Type} (n : Nat) (a : α) (r : Nat) :
    (List.replicate n a).getD r a = a := by
  rcases Nat.lt_or_ge r n with h | h
  · rw [List.getD_eq_getElem _ _ (by simpa using h)]
    exact List.getElem_replicate a (by simpa using h)
  · exact List.getD_eq_default _ _ (by simpa using h)

/-! ### Sizes of the partition: correspondence and balance -/

theorem partitionFold_sizes_corr {H : Type} (ws : Nat) (hws : 0 < ws) :
    ∀ (groups : List (ParamGroup H)) (sizes : List Nat)
      (part : List (List (ParamGroup H))),
    sizes.length = ws → part.length = ws →
    (∀ q, q < ws → sizes.getD q 0 = rankTotal (part.getD q [])) →
    (∀ q, q < ws →
      (groups.foldl (partitionStep ws) (sizes, part)).1.getD q 0 =
        rankTotal ((groups.foldl (partitionStep ws) (sizes, part)).2.getD q [])) := by
  intro groups
  induction groups with
  | nil => intro sizes part _ _ hinv q hq; exact hinv q hq
  | cons g0 gs ih =>
    intro sizes part hs hp hinv q hq
    rw [List.foldl_cons]
    have hstep : partitionStep ws (sizes, part) g0 =
        ((partitionGroup ws sizes g0.params).1,
         List.zipWith (fun pgs ps => pgs ++ [⟨ps, g0.hyper⟩]) part
           (partitionGroup ws sizes g0.params).2) := rfl
    rw [hstep]
    obtain ⟨hA1, hA2, _⟩ := foldl_assignParam_inv ws hws g0.params sizes
      (List.replicate ws []) hs (List.length_replicate ws [])
    rw [show List.foldl assignParam (sizes, List.replicate ws []) g0.params =
      partitionGroup ws sizes g0.params from rfl] at hA1 hA2
    have hcorr := foldl_assignParam_corr ws hws sizes g0.params sizes
      (List.replicate ws []) hs (List.length_replicate ws [])
      (fun q' _ => by rw [getD_replicate_self]; simp [listTotal])
    rw [show List.foldl assignParam (sizes, List.replicate ws []) g0.params =
      partitionGroup ws sizes g0.params from rfl] at hcorr
    have hplen : (List.zipWith (fun pgs ps => pgs ++ [⟨ps, g0.hyper⟩]) part
        (partitionGroup ws sizes g0.params).2).length = ws := by
      rw [List.length_zipWith, hp, hA2, Nat.min_self]
    refine ih _ _ hA1 hplen ?_ q hq
    intro q' hq'
    rw [getD_zipWith _ part _ [] [] [] q' (by rw [hp]; exact hq') (by rw [hA2]; exact hq')]
    have h1 := hcorr q' hq'
    have h2 := hinv q' hq'
    have h3 : rankTotal (part.getD q' [] ++
        [(⟨(partitionGroup ws sizes g0.params).2.getD q' [], g0.hyper⟩ : ParamGroup H)]) =
        rankTotal (part.getD q' []) +
          listTotal ((partitionGroup ws sizes g0.params).2.getD q' []) := by
      simp [rankTotal]
    omega

theorem partitionFold_balance {H : Type} (ws : Nat) (hws : 0 < ws) (L : Nat) :
    ∀ (groups : List (ParamGroup H)) (sizes : List Nat)
      (part : List (List (ParamGroup H))),
    sizes.length = ws →
    (∀ p ∈ allParams groups, p.numel ≤ L) →
    (∀ a ∈ sizes, ∀ b ∈ sizes, a ≤ L + b) →
    (∀ a ∈ (groups.foldl (partitionStep ws) (sizes, part)).1,
     ∀ b ∈ (groups.foldl (partitionStep ws) (sizes, part)).1, a ≤ L + b) := by
  intro groups
  induction groups with
  | nil => intro sizes part _ _ hbal; exact hbal
  | cons g0 gs ih =>
    intro sizes part hs hnum hbal
    rw [List.foldl_cons]
    have hstep : partitionStep ws (sizes, part) g0 =
        ((partitionGroup ws sizes g0.params).1,
         List.zipWith (fun pgs ps => pgs ++ [⟨ps, g0.hyper⟩]) part
           (partitionGroup ws sizes g0.params).2) := rfl
    rw [hstep]
    obtain ⟨hA1, _, _⟩ := foldl_assignParam_inv ws hws g0.params sizes
      (List.replicate ws []) hs (List.length_replicate ws [])
    rw [show List.foldl assignParam (sizes, List.replicate ws []) g0.params =
      partitionGroup ws sizes g0.params from rfl] at hA1
    have hnum0 : ∀ p ∈ g0.params, p.numel ≤ L := by
      intro p hp
      exact hnum p (by simp [allParams]; exact Or.inl hp)
    have hbal1 := foldl_assignParam_balance ws hws L g0.params sizes
      (List.replicate ws []) hs (List.length_replicate ws []) hnum0 hbal
    rw [show List.foldl assignParam (sizes, List.replicate ws []) g0.params =
      partitionGroup ws sizes g0.params from rfl] at hbal1
    exact ih _ _ hA1
      (fun p hp => hnum p (by simp [allParams] at hp ⊢; exact Or.inr hp)) hbal1

theorem partition_sizes_eq {H : Type} (ws : Nat) (hws : 0 < ws)
    (groups : List (ParamGroup H)) :
    (partition_parameters ws groups).map rankTotal = (partitionFull ws groups).1 := by
  obtain ⟨h1, h2, _, _, _⟩ := partitionFold_main ws hws groups (List.replicate ws 0)
    (List.replicate ws []) 0 (by simp) (by simp)
    (fun r _ => by rw [getD_replicate_self]; rfl)
  have hcorr := partitionFold_sizes_corr ws hws groups (List.replicate ws 0)
    (List.replicate ws []) (by simp) (by simp)
    (fun q _ => by rw [getD_replicate_self, getD_replicate_self]; rfl)
  apply List.ext_getElem?
  intro r
  rcases Nat.lt_or_ge r ws with hr | hr
  · rw [List.getElem?_map]
    rw [show partition_parameters ws groups =
      (groups.foldl (partitionStep ws) (List.replicate ws 0, List.replicate ws [])).2 from rfl,
      show partitionFull ws groups =
      groups.foldl (partitionStep ws) (List.replicate ws 0, List.replicate ws []) from rfl]
    rw [List.getElem?_eq_getElem (by rw [h2]; exact hr),
      List.getElem?_eq_getElem (by rw [h1]; exact hr)]
    simp only [Option.map_some']
    congr 1
    have := hcorr r hr
    rw [List.getD_eq_getElem _ _ (by rw [h1]; exact hr),
      List.getD_eq_getElem _ _ (by rw [h2]; exact hr)] at this
    exact this.symm
  · rw [List.getElem?_map]
    rw [show partition_parameters ws groups =
      (groups.foldl (partitionStep ws) (List.replicate ws 0, List.replicate ws [])).2 from rfl,
      show partitionFull ws groups =
      groups.foldl (partitionStep ws) (List.replicate ws 0, List.replicate ws []) from rfl]
    rw [List.getElem?_eq_none (by rw [h2]; exact hr),
      List.getElem?_eq_none (by rw [h1]; exact hr)]
    rfl

/-! ### Claim theorems about the partitioner -/

/-- C1: for every list of global param groups and every `world_size ≥ 1`, the
concatenation over all ranks of the per-rank `params` lists recorded for a given
global group index is a permutation of that group's original `params`: every
parameter of the group lands in exactly one rank's record for that group, with
no parameter duplicated and none omitted. -/
theorem partition_complete_and_disjoint {H : Type} (ws : Nat) (hws : 1 ≤ ws)
    (groups : List (ParamGroup H)) (i : Nat) (gp : ParamGroup H)
    (hi : groups.get? i = some gp) :
    (((partition_parameters ws groups).map
        (fun pgs => groupParamsAt pgs i)).flatten).Perm gp.params := by
  obtain ⟨_, _, _, _, h5⟩ := partitionFold_main ws hws groups (List.replicate ws 0)
    (List.replicate ws []) 0 (by simp) (by simp)
    (fun r _ => by rw [getD_replicate_self]; rfl)
  have h := (h5 i gp hi).1
  rw [Nat.zero_add] at h
  exact h

theorem partition_complete_and_disjoint_witness :
    (((partition_parameters 2 [ParamGroup.mk [⟨0, 10⟩, ⟨1, 1⟩, ⟨2, 1⟩] (0 : Nat)]).map
        (fun pgs => groupParamsAt pgs 0)).flatten).Perm [⟨0, 10⟩, ⟨1, 1⟩, ⟨2, 1⟩] :=
  partition_complete_and_disjoint 2 (by decide)
    [ParamGroup.mk [⟨0, 10⟩, ⟨1, 1⟩, ⟨2, 1⟩] (0 : Nat)] 0
    (ParamGroup.mk [⟨0, 10⟩, ⟨1, 1⟩, ⟨2, 1⟩] (0 : Nat)) rfl

/-- C2: each parameter is assigned to the rank whose running size is currently
smallest, with ties broken by the lowest rank index, and its element count is
then added to that rank's running size; concretely, for world_size 2 and one
group with element counts [10, 1, 1], rank 0 receives exactly the size-10
parameter and rank 1 receives the two size-1 parameters. -/
theorem partition_greedy_step_and_example :
    (∀ (sizes : List Nat) (lists : List (List Param)) (p : Param), sizes ≠ [] →
      (∀ q, q < sizes.length → sizes.getD (idxMin sizes) 0 ≤ sizes.getD q 0) ∧
      (∀ q, q < idxMin sizes → sizes.getD (idxMin sizes) 0 < sizes.getD q 0) ∧
      assignParam (sizes, lists) p =
        (sizes.set (idxMin sizes) (sizes.getD (idxMin sizes) 0 + p.numel),
         lists.set (idxMin sizes) (lists.getD (idxMin sizes) [] ++ [p]))) ∧
    partition_parameters 2 [ParamGroup.mk [⟨0, 10⟩, ⟨1, 1⟩, ⟨2, 1⟩] (0 : Nat)] =
      [[⟨[⟨0, 10⟩], 0⟩], [⟨[⟨1, 1⟩, ⟨2, 1⟩], 0⟩]] := by
  constructor
  · intro sizes lists p hne
    refine ⟨?_, ?_, rfl⟩
    · intro q hq
      rw [getD_idxMin hne]
      apply listMin_le
      rw [List.getD_eq_getElem _ _ hq]
      exact List.getElem_mem hq
    · intro q hq
      rw [getD_idxMin hne]
      exact idxMin_first q hq
  · decide

theorem partition_greedy_step_and_example_witness :
    (∀ q, q < ([5, 3] : List Nat).length →
      ([5, 3] : List Nat).getD (idxMin [5, 3]) 0 ≤ ([5, 3] : List Nat).getD q 0) ∧
    (∀ q, q < idxMin [5, 3] →
      ([5, 3] : List Nat).getD (idxMin [5, 3]) 0 < ([5, 3] : List Nat).getD q 0) ∧
    assignParam ([5, 3], [[], []]) ⟨9, 2⟩ =
      (([5, 3] : List Nat).set (idxMin [5, 3])
        (([5, 3] : List Nat).getD (idxMin [5, 3]) 0 + (Param.mk 9 2).numel),
       ([[], []] : List (List Param)).set (idxMin [5, 3])
        (([[], []] : List (List Param)).getD (idxMin [5, 3]) [] ++ [⟨9, 2⟩])) :=
  partition_greedy_step_and_example.1 [5, 3] [[], []] ⟨9, 2⟩ (by decide)

/-- C5: after partitioning, the maximum per-rank total element count minus the
minimum per-rank total element count is at most the element count of the single
largest parameter. -/
theorem partition_balance_bound {H : Type} (ws : Nat) (hws : 1 ≤ ws)
    (groups : List (ParamGroup H)) :
    listMax ((partition_parameters ws groups).map rankTotal) -
      listMin ((partition_parameters ws groups).map rankTotal) ≤
        largestParam groups := by
  rw [partition_sizes_eq ws hws groups]
  have hbal := partitionFold_balance ws hws (largestParam groups) groups
    (List.replicate ws 0) (List.replicate ws []) (by simp)
    (numel_le_largestParam groups)
    (fun a ha b hb => by
      rw [List.eq_of_mem_replicate ha]
      exact Nat.zero_le _)
  obtain ⟨h1, _, _, _, _⟩ := partitionFold_main ws hws groups (List.replicate ws 0)
    (List.replicate ws []) 0 (by simp) (by simp)
    (fun r _ => by rw [getD_replicate_self]; rfl)
  rw [show partitionFull ws groups =
    groups.foldl (partitionStep ws) (List.replicate ws 0, List.replicate ws []) from rfl]
  have hne : (groups.foldl (partitionStep ws)
      (List.replicate ws 0, List.replicate ws [])).1 ≠ [] := by
    intro h
    rw [h] at h1
    simp at h1
    omega
  have hmax := listMax_mem hne
  have hmin := listMin_mem hne
  have := hbal _ hmax _ hmin
  omega

theorem partition_balance_bound_witness :
    listMax ((partition_parameters 2
        [ParamGroup.mk [⟨0, 10⟩, ⟨1, 1⟩, ⟨2, 1⟩] (0 : Nat)]).map rankTotal) -
      listMin ((partition_parameters 2
        [ParamGroup.mk [⟨0, 10⟩, ⟨1, 1⟩, ⟨2, 1⟩] (0 : Nat)]).map rankTotal) ≤
        largestParam [ParamGroup.mk [⟨0, 10⟩, ⟨1, 1⟩, ⟨2, 1⟩] (0 : Nat)] :=
  partition_balance_bound 2 (by decide) _

/-- C10: the partition has one entry per rank; every rank's entry has exactly
one group record per global param group, in global order, and the record for
global group `i` carries that group's hyperparameters unchanged (a rank that
owns no parameter of a group still gets a record, with an empty params list). -/
theorem partition_rank_groups_aligned {H : Type} (ws : Nat) (hws : 1 ≤ ws)
    (groups : List (ParamGroup H)) :
    (partition_parameters ws groups).length = ws ∧
    ∀ r, r < ws →
      ((partition_parameters ws groups).getD r []).length = groups.length ∧
      ∀ i gp, groups.get? i = some gp →
        ∃ ps, ((partition_parameters ws groups).getD r []).get? i =
          some ⟨ps, gp.hyper⟩ := by
  obtain ⟨_, h2, h3, _, h5⟩ := partitionFold_main ws hws groups (List.replicate ws 0)
    (List.replicate ws []) 0 (by simp) (by simp)
    (fun r _ => by rw [getD_replicate_self]; rfl)
  refine ⟨h2, fun r hr => ⟨by simpa using h3 r hr, fun i gp hi => ?_⟩⟩
  have h := (h5 i gp hi).2 r hr
  rw [Nat.zero_add] at h
  exact h

theorem partition_rank_groups_aligned_witness :
    (partition_parameters 2 [ParamGroup.mk [⟨0, 10⟩, ⟨1, 1⟩, ⟨2, 1⟩] (0 : Nat)]).length = 2 ∧
    (∃ ps, ((partition_parameters 2
        [ParamGroup.mk [⟨0, 10⟩, ⟨1, 1⟩, ⟨2, 1⟩] (0 : Nat)]).getD 1 []).get? 0 =
      some ⟨ps, 0⟩) :=
  ⟨(partition_rank_groups_aligned 2 (by decide)
      [ParamGroup.mk [⟨0, 10⟩, ⟨1, 1⟩, ⟨2, 1⟩] (0 : Nat)]).1,
   ((partition_rank_groups_aligned 2 (by decide)
      [ParamGroup.mk [⟨0, 10⟩, ⟨1, 1⟩, ⟨2, 1⟩] (0 : Nat)]).2 1 (by decide)).2 0
      (ParamGroup.mk [⟨0, 10⟩, ⟨1, 1⟩, ⟨2, 1⟩] (0 : Nat)) rfl⟩

/-! ### The bucketed broadcast pass (`OSS._broadcast_params`) -/

/-- One pending bucket broadcast: the source rank and its recorded
`(parameter, offset, end)` triples. -/
structure BucketReq where
  src : Nat
  packed : List (Param × Nat × Nat)
deriving DecidableEq, Repr

/-- Observable events of one `_broadcast_params` call, in program order:
issuing async broadcasts (bucket or direct), waiting on them, and copying a
bucketed parameter out of a received buffer slice. -/
inductive Ev where
  | issueBucket (src : Nat)
  | issueDirect (src : Nat) (p : Param)
  | waitBucket (src : Nat)
  | unpack (src : Nat) (p : Param) (lo hi : Nat)
  | waitDirect (src : Nat) (p : Param)
deriving DecidableEq, Repr

def Ev.isIssue : Ev → Bool
  | .issueBucket _ => true
  | .issueDirect _ _ => true
  | _ => false

def Ev.isBucketWait : Ev → Bool
  | .waitBucket _ => true
  | _ => false

def Ev.isUnpack : Ev → Bool
  | .unpack _ _ _ _ => true
  | _ => false

def Ev.isDirectWait : Ev → Bool
  | .waitDirect _ _ => true
  | _ => false

/-- The mutable state of the issue loop of `_broadcast_params`:
`offset`, `bucket_sent` and `bucket_params` are per-rank scratch variables,
while `bucket_requests`, `direct_requests` (and the issue-event log) are shared
across the whole call. -/
structure PassState where
  offset : Nat
  bucketSent : Bool
  bucketParams : List (Param × Nat × Nat)
  bucketReqs : List BucketReq
  directReqs : List (Nat × Param)
  issues : List Ev
deriving DecidableEq, Repr

/-- One iteration of the inner loop of `_broadcast_params` (oss.py lines
444-465): pack the parameter while no bucket broadcast has been issued and it
still fits strictly below the buffer capacity, otherwise issue the bucket
broadcast on first overflow (only if data was packed) and broadcast the
parameter directly. -/
def passStep (B src : Nat) (st : PassState) (p : Param) : PassState :=
  if st.bucketSent = false ∧ st.offset + p.numel < B then
    { st with
      bucketParams := st.bucketParams ++ [(p, st.offset, st.offset + p.numel)],
      offset := st.offset + p.numel }
  else
    let st1 :=
      if 0 < st.offset ∧ st.bucketSent = false then
        { st with
          bucketReqs := st.bucketReqs ++ [⟨src, st.bucketParams⟩],
          issues := st.issues ++ [Ev.issueBucket src],
          bucketSent := true }
      else st
    { st1 with
      directReqs := st1.directReqs ++ [(src, p)],
      issues := st1.issues ++ [Ev.issueDirect src p] }

/-- Reset of the per-rank scratch variables at the top of the rank loop
(oss.py lines 439-441); the shared request lists are kept. -/
def initPass (acc : PassState) : PassState :=
  { acc with offset := 0, bucketSent := false, bucketParams := [] }

/-- One rank's pass of the issue loop of `_broadcast_params`, including the
trailing bucket broadcast issued whenever no bucket broadcast was sent during
the loop (oss.py lines 467-475). -/
def rankPass (B src : Nat) (params : List Param) (acc : PassState) : PassState :=
  let st := params.foldl (passStep B src) (initPass acc)
  if st.bucketSent = false then
    { st with
      bucketReqs := st.bucketReqs ++ [⟨src, st.bucketParams⟩],
      issues := st.issues ++ [Ev.issueBucket src] }
  else st

def emptyPass : PassState := ⟨0, false, [], [], [], []⟩

/-- The whole issue loop of `_broadcast_params` over all ranks of one device. -/
def issuePhase (B : Nat) (perRank : List (List Param)) : PassState :=
  (perRank.enum).foldl (fun acc rp => rankPass B rp.1 rp.2 acc) emptyPass

/-- Completion of the bucket broadcasts (oss.py lines 477-482): wait on each
bucket handle in issue order, then, when the source is not the local rank, copy
every recorded slice back into its parameter. -/
def bucketPhase (selfRank : Nat) (reqs : List BucketReq) : List Ev :=
  (reqs.map (fun req =>
    Ev.waitBucket req.src ::
      (if req.src ≠ selfRank then
        req.packed.map (fun t => Ev.unpack req.src t.1 t.2.1 t.2.2)
      else []))).flatten

/-- Completion of the direct broadcasts (oss.py line 485). -/
def directPhase (reqs : List (Nat × Param)) : List Ev :=
  reqs.map (fun sp => Ev.waitDirect sp.1 sp.2)

/-- The full event trace of one `_broadcast_params` call on one device. -/
def broadcast_params (selfRank B : Nat) (perRank : List (List Param)) : List Ev :=
  (issuePhase B perRank).issues ++
    bucketPhase selfRank (issuePhase B perRank).bucketReqs ++
    directPhase (issuePhase B perRank).directReqs

/-! ### Invariants of the issue loop -/

theorem foldl_passStep_perm (B src : Nat) :
    ∀ (params : List Param) (st : PassState),
      (((params.foldl (passStep B src) st).bucketParams.map (fun t => t.1)) ++
        ((params.foldl (passStep B src) st).directReqs.map Prod.snd)).Perm
        ((st.bucketParams.map (fun t => t.1) ++ st.directReqs.map Prod.snd) ++ params) := by
  intro params
  induction params with
  | nil => intro st; simp
  | cons p ps ih =>
    intro st
    rw [List.foldl_cons]
    refine (ih (passStep B src st p)).trans ?_
    have key : ((passStep B src st p).bucketParams.map (fun t => t.1) ++
        (passStep B src st p).directReqs.map Prod.snd).Perm
        ((st.bucketParams.map (fun t => t.1) ++ st.directReqs.map Prod.snd) ++ [p]) := by
      unfold passStep
      split
      · simp only [List.map_append, List.map_cons, List.map_nil, List.append_assoc]
        exact List.Perm.append_left _ List.perm_append_comm
      · split
        · simp [List.append_assoc]
        · simp [List.append_assoc]
    refine (key.append_right ps).trans ?_
    rw [List.append_assoc]
    rfl

theorem foldl_passStep_offset (B src : Nat) :
    ∀ (params : List Param) (st : PassState),
      st.offset = listTotal (st.bucketParams.map (fun t => t.1)) → st.offset ≤ B →
      ((params.foldl (passStep B src) st).offset =
        listTotal ((params.foldl (passStep B src) st).bucketParams.map (fun t => t.1)) ∧
       (params.foldl (passStep B src) st).offset ≤ B) := by
  intro params
  induction params with
  | nil => intro st h1 h2; exact ⟨h1, h2⟩
  | cons p ps ih =>
    intro st h1 h2
    rw [List.foldl_cons]
    apply ih
    · unfold passStep
      split
      · simp only [List.map_append, List.map_cons, List.map_nil]
        have : listTotal (st.bucketParams.map (fun t => t.1) ++ [p]) =
            listTotal (st.bucketParams.map (fun t => t.1)) + p.numel := by
          simp [listTotal]
        omega
      · split <;> simpa using h1
    · unfold passStep
      split
      · rename_i h
        have := h.2
        simp only []
        omega
      · split <;> simpa using h2

theorem foldl_passStep_bucket (B src : Nat) :
    ∀ (params : List Param) (st : PassState),
      st.bucketReqs.length = (if st.bucketSent then 1 else 0) →
      (st.bucketSent = true → 0 < st.offset) →
      ((params.foldl (passStep B src) st).bucketReqs.length =
        (if (params.foldl (passStep B src) st).bucketSent then 1 else 0) ∧
       ((params.foldl (passStep B src) st).bucketSent = true →
        0 < (params.foldl (passStep B src) st).offset)) := by
  intro params
  induction params with
  | nil => intro st h1 h2; exact ⟨h1, h2⟩
  | cons p ps ih =>
    intro st h1 h2
    rw [List.foldl_cons]
    apply ih
    · unfold passStep
      split
      · simpa using h1
      · split
        · rename_i hc
          simp [hc.2] at h1
          simp [h1]
        · simpa using h1
    · unfold passStep
      split
      · intro hs
        simp only [] at hs ⊢
        have := h2 hs
        omega
      · split
        · rename_i hc
          intro _
          simpa using hc.1
        · simpa using h2

theorem rankPass_fields (B src : Nat) (params : List Param) (acc : PassState) :
    (rankPass B src params acc).bucketParams =
      (params.foldl (passStep B src) (initPass acc)).bucketParams ∧
    (rankPass B src params acc).directReqs =
      (params.foldl (passStep B src) (initPass acc)).directReqs ∧
    (rankPass B src params acc).offset =
      (params.foldl (passStep B src) (initPass acc)).offset := by
  simp only [rankPass]
  split <;> simp

/-! ### Claim theorems about bucket packing -/

/-- C3: in one rank's pass of `_broadcast_params`, every parameter is either
packed into the bucket exactly once or broadcast directly exactly once — the
packed parameters followed by the directly-sent parameters form a permutation
of the rank's parameter list — and the total element count packed into the
bucket never exceeds the buffer capacity. -/
theorem bucket_pack_or_direct (B src : Nat) (params : List Param) :
    ((((rankPass B src params emptyPass).bucketParams.map (fun t => t.1)) ++
       ((rankPass B src params emptyPass).directReqs.map Prod.snd)).Perm params) ∧
    listTotal ((rankPass B src params emptyPass).bucketParams.map (fun t => t.1)) ≤ B := by
  obtain ⟨hb, hd, ho⟩ := rankPass_fields B src params emptyPass
  have hinit : initPass emptyPass = emptyPass := rfl
  rw [hb, hd, hinit]
  have hperm := foldl_passStep_perm B src params emptyPass
  have hoff := foldl_passStep_offset B src params emptyPass (by rfl) (Nat.zero_le B)
  refine ⟨by simpa using hperm, ?_⟩
  omega

theorem bucket_pack_or_direct_witness :
    ((((rankPass 4 9 [⟨0, 2⟩, ⟨1, 3⟩] emptyPass).bucketParams.map (fun t => t.1)) ++
       ((rankPass 4 9 [⟨0, 2⟩, ⟨1, 3⟩] emptyPass).directReqs.map Prod.snd)).Perm
      [⟨0, 2⟩, ⟨1, 3⟩]) ∧
    listTotal ((rankPass 4 9 [⟨0, 2⟩, ⟨1, 3⟩] emptyPass).bucketParams.map (fun t => t.1)) ≤ 4 :=
  bucket_pack_or_direct 4 9 [⟨0, 2⟩, ⟨1, 3⟩]

/-- C4 as stated is false on the code: with buffer capacity 4 and a single
parameter of 4 elements, the very first parameter overflows the empty buffer,
the pass ends with `offset = 0`, and yet the trailing branch still issues a
bucket broadcast for the rank (with an empty pack list). -/
theorem bucket_broadcast_empty_counterexample :
    (rankPass 4 0 [⟨0, 4⟩] emptyPass).offset = 0 ∧
    (rankPass 4 0 [⟨0, 4⟩] emptyPass).bucketReqs = [⟨0, []⟩] ∧
    (rankPass 4 0 [⟨0, 4⟩] emptyPass).issues =
      [Ev.issueDirect 0 ⟨0, 4⟩, Ev.issueBucket 0] := by decide

/-- C4 (amended): a mid-loop bucket broadcast is issued only when data was
packed (`offset > 0`), but every rank pass issues exactly one bucket broadcast:
if none was issued during the loop — including when the very first parameter
already overflows the empty buffer — the trailing branch issues one at the end
even with `offset = 0`. -/
theorem bucket_broadcast_exactly_one (B src : Nat) (params : List Param) :
    (rankPass B src params emptyPass).bucketReqs.length = 1 ∧
    ((rankPass B src params emptyPass).bucketSent = true →
      0 < (rankPass B src params emptyPass).offset) := by
  have hbk := foldl_passStep_bucket B src params (initPass emptyPass) (by rfl) (by simp [initPass, emptyPass])
  simp only [rankPass]
  split
  · rename_i hsent
    constructor
    · simp only [List.length_append]
      rw [hbk.1, hsent]
      rfl
    · intro h
      simp only [] at h
      rw [hsent] at h
      cases h
  · rename_i hsent
    have hs : (params.foldl (passStep B src) (initPass emptyPass)).bucketSent = true := by
      revert hsent
      cases (params.foldl (passStep B src) (initPass emptyPass)).bucketSent <;> simp
    constructor
    · rw [hbk.1, hs]
      rfl
    · intro _
      exact hbk.2 hs

theorem bucket_broadcast_exactly_one_witness :
    (rankPass 4 0 [⟨0, 1⟩] emptyPass).bucketReqs.length = 1 :=
  (bucket_broadcast_exactly_one 4 0 [⟨0, 1⟩]).1

/-! ### The event trace of `_broadcast_params` -/

theorem passStep_issues_append (B src : Nat) (st : PassState) (p : Param) :
    ∃ l, (passStep B src st p).issues = st.issues ++ l ∧ ∀ e ∈ l, e.isIssue = true := by
  simp only [passStep]
  split
  · exact ⟨[], by simp, by simp⟩
  · split
    · refine ⟨[Ev.issueBucket src, Ev.issueDirect src p], ?_, ?_⟩
      · simp [List.append_assoc]
      · simp [Ev.isIssue]
    · refine ⟨[Ev.issueDirect src p], ?_, ?_⟩
      · simp
      · simp [Ev.isIssue]

theorem foldl_passStep_issues (B src : Nat) :
    ∀ (params : List Param) (st : PassState),
      ∃ l, (params.foldl (passStep B src) st).issues = st.issues ++ l ∧
        ∀ e ∈ l, e.isIssue = true := by
  intro params
  induction params with
  | nil => intro st; exact ⟨[], by simp, by simp⟩
  | cons p ps ih =>
    intro st
    rw [List.foldl_cons]
    obtain ⟨l1, h1, h1i⟩ := passStep_issues_append B src st p
    obtain ⟨l2, h2, h2i⟩ := ih (passStep B src st p)
    refine ⟨l1 ++ l2, ?_, ?_⟩
    · rw [h2, h1, List.append_assoc]
    · intro e he
      rcases List.mem_append.mp he with he | he
      · exact h1i e he
      · exact h2i e he

theorem rankPass_issues (B src : Nat) (params : List Param) (acc : PassState) :
    ∃ l, (rankPass B src params acc).issues = acc.issues ++ l ∧
      ∀ e ∈ l, e.isIssue = true := by
  obtain ⟨l, h, hi⟩ := foldl_passStep_issues B src params (initPass acc)
  have hinit : (initPass acc).issues = acc.issues := rfl
  simp only [rankPass]
  split
  · refine ⟨l ++ [Ev.issueBucket src], ?_, ?_⟩
    · simp only []
      rw [h, hinit, List.append_assoc]
    · intro e he
      rcases List.mem_append.mp he with he | he
      · exact hi e he
      · simp at he
        subst he
        rfl
  · exact ⟨l, by rw [h, hinit], hi⟩

theorem foldl_rankPass_issues (B : Nat) :
    ∀ (l : List (Nat × List Param)) (st : PassState),
      ∃ ll, ((l.foldl (fun acc rp => rankPass B rp.1 rp.2 acc) st).issues =
        st.issues ++ ll) ∧ ∀ e ∈ ll, e.isIssue = true := by
  intro l
  induction l with
  | nil => intro st; exact ⟨[], by simp, by simp⟩
  | cons rp rps ih =>
    intro st
    rw [List.foldl_cons]
    obtain ⟨l1, h1, h1i⟩ := rankPass_issues B rp.1 rp.2 st
    obtain ⟨l2, h2, h2i⟩ := ih (rankPass B rp.1 rp.2 st)
    refine ⟨l1 ++ l2, by rw [h2, h1, List.append_assoc], ?_⟩
    intro e he
    rcases List.mem_append.mp he with he | he
    · exact h1i e he
    · exact h2i e he

theorem issuePhase_issues (B : Nat) (perRank : List (List Param)) :
    ∀ e ∈ (issuePhase B perRank).issues, e.isIssue = true := by
  obtain ⟨ll, h, hi⟩ := foldl_rankPass_issues B perRank.enum emptyPass
  intro e he
  rw [show issuePhase B perRank =
    perRank.enum.foldl (fun acc rp => rankPass B rp.1 rp.2 acc) emptyPass from rfl, h] at he
  simp only [emptyPass] at he
  rw [List.nil_append] at he
  exact hi e he

theorem mem_bucketPhase {selfRank : Nat} {reqs : List BucketReq} {e : Ev} :
    e ∈ bucketPhase selfRank reqs ↔
      ∃ req, req ∈ reqs ∧
        (e = Ev.waitBucket req.src ∨
         (req.src ≠ selfRank ∧
          ∃ t, t ∈ req.packed ∧ e = Ev.unpack req.src t.1 t.2.1 t.2.2)) := by
  unfold bucketPhase
  rw [List.mem_flatten]
  constructor
  · rintro ⟨l, hl, hel⟩
    rw [List.mem_map] at hl
    obtain ⟨req, hreq, rfl⟩ := hl
    rcases List.mem_cons.mp hel with rfl | hel
    · exact ⟨req, hreq, Or.inl rfl⟩
    · by_cases hsrc : req.src = selfRank
      · rw [if_neg (not_not_intro hsrc)] at hel
        cases hel
      · rw [if_pos hsrc] at hel
        rw [List.mem_map] at hel
        obtain ⟨t, ht, rfl⟩ := hel
        exact ⟨req, hreq, Or.inr ⟨hsrc, t, ht, rfl⟩⟩
  · rintro ⟨req, hreq, h⟩
    refine ⟨_, List.mem_map_of_mem _ hreq, ?_⟩
    rcases h with rfl | ⟨hsrc, t, ht, rfl⟩
    · exact List.mem_cons_self _ _
    · exact List.mem_cons_of_mem _ (by rw [if_pos hsrc]; exact List.mem_map_of_mem _ ht)

/-- C6: within one `_broadcast_params` call, the trace is three consecutive
segments: first all broadcast requests (bucket and direct) for all ranks are
issued; then every bucket-broadcast handle is waited on and, for every source
rank other than the local one, each bucketed parameter is copied out of that
rank's buffer slice at its recorded (offset, end) range — the local rank's own
bucketed parameters are never overwritten; only after all buckets are unpacked
are the direct-broadcast handles waited on. -/
theorem broadcast_trace_ordering (selfRank B : Nat) (perRank : List (List Param)) :
    broadcast_params selfRank B perRank =
      (issuePhase B perRank).issues ++
        bucketPhase selfRank (issuePhase B perRank).bucketReqs ++
        directPhase (issuePhase B perRank).directReqs ∧
    (∀ e ∈ (issuePhase B perRank).issues, e.isIssue = true) ∧
    (∀ e ∈ bucketPhase selfRank (issuePhase B perRank).bucketReqs,
        e.isBucketWait = true ∨ e.isUnpack = true) ∧
    (∀ e ∈ directPhase (issuePhase B perRank).directReqs, e.isDirectWait = true) ∧
    (∀ req ∈ (issuePhase B perRank).bucketReqs,
        Ev.waitBucket req.src ∈ bucketPhase selfRank (issuePhase B perRank).bucketReqs) ∧
    (∀ p lo hi, Ev.unpack selfRank p lo hi ∉ broadcast_params selfRank B perRank) ∧
    (∀ src p lo hi, Ev.unpack src p lo hi ∈ broadcast_params selfRank B perRank →
        src ≠ selfRank ∧ ∃ req, req ∈ (issuePhase B perRank).bucketReqs ∧
          req.src = src ∧ (p, lo, hi) ∈ req.packed) ∧
    (∀ req ∈ (issuePhase B perRank).bucketReqs, req.src ≠ selfRank →
        ∀ t ∈ req.packed,
          Ev.unpack req.src t.1 t.2.1 t.2.2 ∈
            bucketPhase selfRank (issuePhase B perRank).bucketReqs) := by
  have hunpack : ∀ src p lo hi,
      Ev.unpack src p lo hi ∈ broadcast_params selfRank B perRank →
      src ≠ selfRank ∧ ∃ req, req ∈ (issuePhase B perRank).bucketReqs ∧
        req.src = src ∧ (p, lo, hi) ∈ req.packed := by
    intro src p lo hi h
    simp only [broadcast_params] at h
    rcases List.mem_append.mp h with h | h
    · rcases List.mem_append.mp h with h | h
      · have := issuePhase_issues B perRank _ h
        simp [Ev.isIssue] at this
      · rw [mem_bucketPhase] at h
        obtain ⟨req, hreq, hcase⟩ := h
        rcases hcase with heq | ⟨hsrc, t, ht, heq⟩
        · cases heq
        · obtain ⟨h1, h2, h3, h4⟩ := Ev.unpack.inj heq
          subst h1
          refine ⟨hsrc, req, hreq, rfl, ?_⟩
          rw [h2, h3, h4]
          simpa using ht
    · simp only [directPhase, List.mem_map] at h
      obtain ⟨sp, _, heq⟩ := h
      cases heq
  refine ⟨by simp [broadcast_params], issuePhase_issues B perRank, ?_, ?_, ?_, ?_, hunpack, ?_⟩
  · intro e he
    rw [mem_bucketPhase] at he
    obtain ⟨req, _, hcase⟩ := he
    rcases hcase with rfl | ⟨_, t, _, rfl⟩
    · exact Or.inl rfl
    · exact Or.inr rfl
  · intro e he
    simp only [directPhase, List.mem_map] at he
    obtain ⟨sp, _, rfl⟩ := he
    rfl
  · intro req hreq
    exact mem_bucketPhase.mpr ⟨req, hreq, Or.inl rfl⟩
  · intro p lo hi h
    exact absurd rfl (hunpack selfRank p lo hi h).1
  · intro req hreq hsrc t ht
    exact mem_bucketPhase.mpr ⟨req, hreq, Or.inr ⟨hsrc, t, ht, rfl⟩⟩

theorem broadcast_trace_ordering_witness :
    Ev.unpack 0 ⟨0, 2⟩ 0 2 ∉ broadcast_params 0 4 [[⟨0, 2⟩], [⟨1, 3⟩]] :=
  (broadcast_trace_ordering 0 4 [[⟨0, 2⟩], [⟨1, 3⟩]]).2.2.2.2.2.1 ⟨0, 2⟩ 0 2

/-! ### Checkpoints: `OSS.state_dict` and `OSS.rank_local_state_dict` -/

/-- A shard's state dict as collected by consolidation: the wrapped
optimizer's `state` (opaque here) plus its `param_groups`. -/
structure LocalSD (S G : Type) where
  state : S
  param_groups : List G
deriving DecidableEq, Repr

/-- The global dict built by `OSS.state_dict` after consolidation. -/
structure GlobalSD (S G : Type) where
  state : List S
  param_groups : List G
  partition : List (Nat × Nat)
deriving DecidableEq, Repr

/-- The value returned by `OSS.state_dict`: either the local shard's dict or
the consolidated global dict; the boolean is the value stored under the
`"local_state_dict"` key. -/
inductive SDOut (S G : Type) where
  | localOut (d : LocalSD S G) (localFlag : Bool)
  | globalOut (d : GlobalSD S G) (localFlag : Bool)
deriving DecidableEq, Repr

/-- One iteration of the flattening loop of `OSS.state_dict` (oss.py lines
257-261): extend the flattened `param_groups`, record `(start, end)`, advance
`start`. -/
def sdFoldF {S G : Type} (acc : List G × List (Nat × Nat) × Nat) (s : LocalSD S G) :
    List G × List (Nat × Nat) × Nat :=
  (acc.1 ++ s.param_groups,
   acc.2.1 ++ [(acc.2.2, acc.2.2 + s.param_groups.length)],
   acc.2.2 + s.param_groups.length)

/-- The flattened `param_groups` and the partition map of `OSS.state_dict`. -/
def buildPartition {S G : Type} (shards : List (LocalSD S G)) :
    List G × List (Nat × Nat) :=
  ((shards.foldl sdFoldF ([], [], 0)).1, (shards.foldl sdFoldF ([], [], 0)).2.1)

/-- `OSS.state_dict` (oss.py lines 234-268). The first component records
whether the staleness warning was emitted. -/
def state_dict {S G : Type} (localSD : LocalSD S G) (allStates : List (LocalSD S G)) :
    Bool × SDOut S G :=
  if allStates.length = 0 then
    (true, SDOut.localOut localSD true)
  else
    (false, SDOut.globalOut
      ⟨allStates.map LocalSD.state,
       (buildPartition allStates).1,
       (buildPartition allStates).2⟩ false)

/-- `OSS.rank_local_state_dict` (oss.py lines 270-280): slice the flattened
`param_groups` with the partition's `[start, end)` range for `rank` and pair
it with the rank's state entry; Python list indexing is modelled with `get?`. -/
def rank_local_state_dict {S G : Type} (rank : Nat) (sd : GlobalSD S G) :
    Option (LocalSD S G) :=
  match sd.partition.get? rank, sd.state.get? rank with
  | some se, some st =>
      some ⟨st, (sd.param_groups.drop se.1).take (se.2 - se.1)⟩
  | _, _ => none

theorem sdFold_append {S G : Type} :
    ∀ (shards : List (LocalSD S G)) (pgs0 : List G) (part0 : List (Nat × Nat)) (n0 : Nat),
      ∃ pgs1 part1,
        (shards.foldl sdFoldF (pgs0, part0, n0)).1 = pgs0 ++ pgs1 ∧
        (shards.foldl sdFoldF (pgs0, part0, n0)).2.1 = part0 ++ part1 := by
  intro shards
  induction shards with
  | nil => intro pgs0 part0 n0; exact ⟨[], [], by simp, by simp⟩
  | cons s ss ih =>
    intro pgs0 part0 n0
    rw [List.foldl_cons]
    obtain ⟨pgs1, part1, h1, h2⟩ := ih (pgs0 ++ s.param_groups)
      (part0 ++ [(n0, n0 + s.param_groups.length)]) (n0 + s.param_groups.length)
    exact ⟨s.param_groups ++ pgs1, (n0, n0 + s.param_groups.length) :: part1,
      by rw [show sdFoldF (pgs0, part0, n0) s =
        (pgs0 ++ s.param_groups, part0 ++ [(n0, n0 + s.param_groups.length)],
         n0 + s.param_groups.length) from rfl, h1, List.append_assoc],
      by rw [show sdFoldF (pgs0, part0, n0) s =
        (pgs0 ++ s.param_groups, part0 ++ [(n0, n0 + s.param_groups.length)],
         n0 + s.param_groups.length) from rfl, h2, List.append_assoc]; rfl⟩

theorem sdFold_spec {S G : Type} :
    ∀ (shards : List (LocalSD S G)) (pgs0 : List G) (part0 : List (Nat × Nat)),
      ∀ r sh, shards.get? r = some sh →
        ∃ a, ((shards.foldl sdFoldF (pgs0, part0, pgs0.length)).2.1).get?
              (part0.length + r) = some (a, a + sh.param_groups.length) ∧
          (((shards.foldl sdFoldF (pgs0, part0, pgs0.length)).1.drop a).take
            sh.param_groups.length) = sh.param_groups := by
  intro shards
  induction shards with
  | nil => intro pgs0 part0 r sh h; simp at h
  | cons s ss ih =>
    intro pgs0 part0 r sh h
    rw [List.foldl_cons,
      show sdFoldF (pgs0, part0, pgs0.length) s =
        (pgs0 ++ s.param_groups, part0 ++ [(pgs0.length, pgs0.length + s.param_groups.length)],
         pgs0.length + s.param_groups.length) from rfl]
    cases r with
    | zero =>
      simp only [List.get?_cons_zero, Option.some.injEq] at h
      subst h
      obtain ⟨pgs1, part1, h1, h2⟩ := sdFold_append ss (pgs0 ++ s.param_groups)
        (part0 ++ [(pgs0.length, pgs0.length + s.param_groups.length)])
        (pgs0.length + s.param_groups.length)
      refine ⟨pgs0.length, ?_, ?_⟩
      · rw [h2, List.append_assoc, List.get?_eq_getElem?,
          List.getElem?_append_right (by simp), Nat.add_zero]
        simp
      · rw [h1, List.append_assoc, List.drop_left]
        exact List.take_left _ _
    | succ r =>
      simp only [List.get?_cons_succ] at h
      have := ih (pgs0 ++ s.param_groups)
        (part0 ++ [(pgs0.length, pgs0.length + s.param_groups.length)]) r sh h
      rw [List.length_append] at this
      obtain ⟨a, ha1, ha2⟩ := this
      refine ⟨a, ?_, ha2⟩
      rw [← ha1]
      congr 1
      simp only [List.length_append, List.length_cons, List.length_nil]
      omega

/-- C7: calling `state_dict` while the collected shard list is empty does not
raise: it emits the staleness warning and returns the local shard's dict with
`local_state_dict = True`; after consolidation it returns the global dict with
`local_state_dict = False` (and no warning). -/
theorem state_dict_stale_or_global {S G : Type} (localSD : LocalSD S G)
    (allStates : List (LocalSD S G)) :
    (allStates = [] →
      state_dict localSD allStates = (true, SDOut.localOut localSD true)) ∧
    (allStates ≠ [] →
      state_dict localSD allStates = (false, SDOut.globalOut
        ⟨allStates.map LocalSD.state, (buildPartition allStates).1,
         (buildPartition allStates).2⟩ false)) := by
  constructor
  · intro h
    subst h
    rfl
  · intro h
    have hlen : ¬ allStates.length = 0 := by
      simpa [List.length_eq_zero] using h
    simp [state_dict, hlen]

theorem state_dict_stale_or_global_witness :
    state_dict (LocalSD.mk (5 : Nat) [(1 : Nat), 2]) [] =
      (true, SDOut.localOut (LocalSD.mk (5 : Nat) [(1 : Nat), 2]) true) :=
  (state_dict_stale_or_global (LocalSD.mk (5 : Nat) [(1 : Nat), 2]) []).1 rfl

/-- C8: for every rank `r` with a collected shard, extracting rank `r` from the
global dict produced by `state_dict` after consolidation recovers exactly that
shard's `state` and `param_groups`: the partition ranges are cumulative group
counts, so slicing the flattened `param_groups` list gives back the shard's own
groups. -/
theorem consolidation_round_trip {S G : Type} (localSD : LocalSD S G)
    (shards : List (LocalSD S G)) (r : Nat) (sh : LocalSD S G)
    (hr : shards.get? r = some sh) :
    ∃ g : GlobalSD S G,
      state_dict localSD shards = (false, SDOut.globalOut g false) ∧
      rank_local_state_dict r g = some ⟨sh.state, sh.param_groups⟩ := by
  have hne : shards ≠ [] := by
    intro h
    subst h
    simp at hr
  refine ⟨⟨shards.map LocalSD.state, (buildPartition shards).1, (buildPartition shards).2⟩,
    (state_dict_stale_or_global localSD shards).2 hne, ?_⟩
  obtain ⟨a, ha1, ha2⟩ := sdFold_spec shards [] [] r sh hr
  have hstate : (shards.map LocalSD.state).get? r = some sh.state := by
    rw [List.get?_eq_getElem?, List.getElem?_map, ← List.get?_eq_getElem?, hr]
    rfl
  simp only [List.length_nil, Nat.zero_add] at ha1
  simp only [List.length_nil] at ha2
  unfold rank_local_state_dict
  simp only [buildPartition]
  rw [ha1, hstate]
  simp only [Nat.add_sub_cancel_left, ha2]

theorem consolidation_round_trip_witness :
    ∃ g : GlobalSD Nat Nat,
      state_dict (LocalSD.mk 0 [(9 : Nat)])
          [LocalSD.mk 1 [(4 : Nat)], LocalSD.mk 2 [(5 : Nat), 6]] =
        (false, SDOut.globalOut g false) ∧
      rank_local_state_dict 1 g = some ⟨2, [5, 6]⟩ :=
  consolidation_round_trip (LocalSD.mk 0 [(9 : Nat)])
    [LocalSD.mk 1 [(4 : Nat)], LocalSD.mk 2 [(5 : Nat), 6]] 1
    (LocalSD.mk 2 [(5 : Nat), 6]) rfl

/-! ### Gradient discarding (`OSS._free_other_grads`) -/

/-- All parameters of one rank's partition records. -/
def groupFlat {H : Type} (pgs : List (ParamGroup H)) : List Param :=
  (pgs.map ParamGroup.params).flatten

/-- All parameters of all ranks' partition records, rank-major. -/
def totalFlat {H : Type} (part : List (List (ParamGroup H))) : List Param :=
  (part.map groupFlat).flatten

/-- `t.grad = None` for one parameter, on a pid-indexed gradient store. -/
def clearParam {G : Type} (g : Nat → Option G) (p : Param) : Nat → Option G :=
  fun q => if q = p.pid then none else g q

/-- `OSS._free_other_grads` (oss.py lines 409-418): for every rank other than
this one, set the gradient of each of its parameters to `None`. -/
def free_other_grads {H G : Type} (selfRank : Nat)
    (part : List (List (ParamGroup H))) (grads : Nat → Option G) : Nat → Option G :=
  part.enum.foldl
    (fun g rp =>
      if rp.1 = selfRank then g
      else rp.2.foldl (fun g pg => pg.params.foldl clearParam g) g)
    grads

theorem count_totalFlat_zipWith {H : Type} (x : Param) (hy : H) :
    ∀ (part : List (List (ParamGroup H))) (plists : List (List Param)),
      part.length = plists.length →
      (totalFlat (List.zipWith (fun pgs ps => pgs ++ [⟨ps, hy⟩]) part plists)).count x =
        (totalFlat part).count x + plists.flatten.count x := by
  intro part
  induction part with
  | nil =>
    intro plists h
    cases plists with
    | nil => simp [totalFlat]
    | cons pl plr => simp at h
  | cons pg pgr ih =>
    intro plists h
    cases plists with
    | nil => simp at h
    | cons pl plr =>
      have ihh := ih plr (by simpa using h)
      simp only [List.zipWith_cons_cons, totalFlat, List.map_cons, List.flatten_cons,
        List.count_append] at ihh ⊢
      have hgf : (groupFlat (pg ++ [⟨pl, hy⟩])).count x =
          (groupFlat pg).count x + pl.count x := by
        simp [groupFlat]
      omega

theorem partitionFold_count {H : Type} (ws : Nat) (hws : 0 < ws) (x : Param) :
    ∀ (groups : List (ParamGroup H)) (sizes : List Nat)
      (part : List (List (ParamGroup H))),
      sizes.length = ws → part.length = ws →
      (totalFlat ((groups.foldl (partitionStep ws) (sizes, part)).2)).count x =
        (totalFlat part).count x + (allParams groups).count x := by
  intro groups
  induction groups with
  | nil => intro sizes part _ _; simp [allParams]
  | cons g0 gs ih =>
    intro sizes part hs hp
    rw [List.foldl_cons,
      show partitionStep ws (sizes, part) g0 =
        ((partitionGroup ws sizes g0.params).1,
         List.zipWith (fun pgs ps => pgs ++ [⟨ps, g0.hyper⟩]) part
           (partitionGroup ws sizes g0.params).2) from rfl]
    obtain ⟨hA1, hA2, hA3⟩ := foldl_assignParam_inv ws hws g0.params sizes
      (List.replicate ws []) hs (List.length_replicate ws [])
    rw [show List.foldl assignParam (sizes, List.replicate ws []) g0.params =
      partitionGroup ws sizes g0.params from rfl] at hA1 hA2 hA3
    have hA3' : ((partitionGroup ws sizes g0.params).2.flatten).Perm g0.params := by
      simpa using hA3
    have hplen : (List.zipWith (fun pgs ps => pgs ++ [⟨ps, g0.hyper⟩]) part
        (partitionGroup ws sizes g0.params).2).length = ws := by
      rw [List.length_zipWith, hp, hA2, Nat.min_self]
    rw [ih _ _ hA1 hplen,
      count_totalFlat_zipWith x g0.hyper part (partitionGroup ws sizes g0.params).2
        (by rw [hp, hA2]),
      hA3'.count_eq x,
      show allParams (g0 :: gs) = g0.params ++ allParams gs from by simp [allParams],
      List.count_append]
    omega

theorem partition_total_perm {H : Type} (ws : Nat) (hws : 0 < ws)
    (groups : List (ParamGroup H)) :
    (totalFlat (partition_parameters ws groups)).Perm (allParams groups) := by
  rw [List.perm_iff_count]
  intro x
  have h := partitionFold_count ws hws x groups (List.replicate ws 0)
    (List.replicate ws []) (by simp) (by simp)
  rw [show partition_parameters ws groups =
    (groups.foldl (partitionStep ws) (List.replicate ws 0, List.replicate ws [])).2 from rfl,
    h]
  have hz : totalFlat (List.replicate ws ([] : List (ParamGroup H))) = [] := by
    simp [totalFlat, List.map_replicate, groupFlat]
  rw [hz]
  simp

theorem foldl_clearParam_eq {G : Type} :
    ∀ (ps : List Param) (g : Nat → Option G) (q : Nat),
      (ps.foldl clearParam g) q = if q ∈ ps.map Param.pid then none else g q := by
  intro ps
  induction ps with
  | nil => intro g q; simp
  | cons p ps ih =>
    intro g q
    rw [List.foldl_cons, ih]
    by_cases h1 : q ∈ ps.map Param.pid
    · simp [h1]
    · by_cases h2 : q = p.pid
      · simp [h1, h2, clearParam]
      · simp [h1, h2, clearParam]

theorem foldl_groupClear_eq {H G : Type} :
    ∀ (pgs : List (ParamGroup H)) (g : Nat → Option G) (q : Nat),
      (pgs.foldl (fun g pg => pg.params.foldl clearParam g) g) q =
        if q ∈ (groupFlat pgs).map Param.pid then none else g q := by
  intro pgs
  induction pgs with
  | nil => intro g q; simp [groupFlat]
  | cons pg pgr ih =>
    intro g q
    rw [List.foldl_cons, ih, foldl_clearParam_eq]
    have hsplit : (groupFlat (pg :: pgr)).map Param.pid =
        pg.params.map Param.pid ++ (groupFlat pgr).map Param.pid := by
      simp [groupFlat]
    rw [hsplit]
    by_cases h1 : q ∈ (groupFlat pgr).map Param.pid
    · simp [h1]
    · by_cases h2 : q ∈ pg.params.map Param.pid
      · simp [h1, h2]
      · simp [h1, h2]

theorem foldl_rankClear_eq {H G : Type} (selfRank : Nat) :
    ∀ (l : List (Nat × List (ParamGroup H))) (grads : Nat → Option G) (q : Nat),
      (l.foldl (fun g rp => if rp.1 = selfRank then g
          else rp.2.foldl (fun g pg => pg.params.foldl clearParam g) g) grads) q =
        if q ∈ (((l.filter (fun rp => rp.1 != selfRank)).map
            (fun rp => groupFlat rp.2)).flatten).map Param.pid then none
        else grads q := by
  intro l
  induction l with
  | nil => intro grads q; simp
  | cons rp rps ih =>
    intro grads q
    rw [List.foldl_cons]
    by_cases h : rp.1 = selfRank
    · rw [if_pos h, ih]
      have hfil : (rp :: rps).filter (fun rp => rp.1 != selfRank) =
          rps.filter (fun rp => rp.1 != selfRank) := by
        simp [List.filter_cons, h]
      rw [hfil]
    · rw [if_neg h, ih, foldl_groupClear_eq]
      have hfil : (rp :: rps).filter (fun rp => rp.1 != selfRank) =
          rp :: rps.filter (fun rp => rp.1 != selfRank) := by
        simp [List.filter_cons, h]
      rw [hfil]
      simp only [List.map_cons, List.flatten_cons, List.map_append, List.mem_append]
      by_cases h1 : q ∈ (((rps.filter (fun rp => rp.1 != selfRank)).map
          (fun rp => groupFlat rp.2)).flatten).map Param.pid
      · rw [if_pos h1, if_pos (Or.inr h1)]
      · by_cases h2 : q ∈ (groupFlat rp.2).map Param.pid
        · rw [if_neg h1, if_pos h2, if_pos (Or.inl h2)]
        · rw [if_neg h1, if_neg h2,
            if_neg (by intro hc; rcases hc with hc | hc; exacts [h2 hc, h1 hc])]

/-- C9: during `step()`, before the wrapped optimizer's step runs,
`_free_other_grads` discards (sets to `None`) the gradient of every parameter
assigned to a rank other than this one, while the gradient of every parameter
owned by this rank is left unchanged. -/
theorem free_other_grads_frame {H G : Type} (ws : Nat) (hws : 1 ≤ ws)
    (groups : List (ParamGroup H)) (selfRank : Nat) (hself : selfRank < ws)
    (hnodup : ((allParams groups).map Param.pid).Nodup)
    (grads : Nat → Option G) (p : Param) :
    (∀ r, r < ws → r ≠ selfRank →
      p ∈ groupFlat ((partition_parameters ws groups).getD r []) →
      free_other_grads selfRank (partition_parameters ws groups) grads p.pid = none) ∧
    (p ∈ groupFlat ((partition_parameters ws groups).getD selfRank []) →
      free_other_grads selfRank (partition_parameters ws groups) grads p.pid =
        grads p.pid) := by
  obtain ⟨_, hplen, _, _, _⟩ := partitionFold_main ws hws groups (List.replicate ws 0)
    (List.replicate ws []) 0 (by simp) (by simp)
    (fun r _ => by rw [getD_replicate_self]; rfl)
  have hlen : (partition_parameters ws groups).length = ws := hplen
  have hchar : ∀ q, free_other_grads selfRank (partition_parameters ws groups) grads q =
      if q ∈ ((((partition_parameters ws groups).enum.filter
          (fun rp => rp.1 != selfRank)).map (fun rp => groupFlat rp.2)).flatten).map
          Param.pid
      then none else grads q :=
    fun q => foldl_rankClear_eq selfRank (partition_parameters ws groups).enum grads q
  constructor
  · intro r hr hrne hmem
    rw [hchar]
    have hrlen : r < (partition_parameters ws groups).length := by
      rw [hlen]; exact hr
    have henum : (r, (partition_parameters ws groups).getD r []) ∈
        (partition_parameters ws groups).enum := by
      rw [List.mem_enum_iff_getElem?]
      rw [List.getElem?_eq_getElem hrlen]
      rw [List.getD_eq_getElem _ _ hrlen]
    have hfil : (r, (partition_parameters ws groups).getD r []) ∈
        (partition_parameters ws groups).enum.filter (fun rp => rp.1 != selfRank) :=
      List.mem_filter.mpr ⟨henum, by simpa using hrne⟩
    have hblk : groupFlat ((partition_parameters ws groups).getD r []) ∈
        ((partition_parameters ws groups).enum.filter
          (fun rp => rp.1 != selfRank)).map (fun rp => groupFlat rp.2) :=
      List.mem_map_of_mem _ hfil
    rw [if_pos (List.mem_map_of_mem Param.pid (List.mem_flatten.mpr ⟨_, hblk, hmem⟩))]
  · intro hmem
    rw [hchar]
    rw [if_neg ?hnotin]
    case hnotin =>
      intro hin
      rw [List.mem_map] at hin
      obtain ⟨p', hp', hpid⟩ := hin
      rw [List.mem_flatten] at hp'
      obtain ⟨blk, hblk, hp'blk⟩ := hp'
      rw [List.mem_map] at hblk
      obtain ⟨rp, hrpfil, rfl⟩ := hblk
      rw [List.mem_filter] at hrpfil
      obtain ⟨hrpenum, hrpbne⟩ := hrpfil
      rw [List.mem_enum_iff_getElem?] at hrpenum
      obtain ⟨hrplt, hrpval⟩ := List.getElem?_eq_some.mp hrpenum
      have hrpne : rp.1 ≠ selfRank := by simpa using hrpbne
      have hperm := partition_total_perm ws hws groups
      have hnodup2 : ((totalFlat (partition_parameters ws groups)).map Param.pid).Nodup :=
        ((hperm.map Param.pid).nodup_iff).mpr hnodup
      rw [show totalFlat (partition_parameters ws groups) =
          ((partition_parameters ws groups).map groupFlat).flatten from rfl,
        List.map_flatten, List.map_map, List.nodup_flatten] at hnodup2
      obtain ⟨_, hdisj⟩ := hnodup2
      rw [List.pairwise_iff_getElem] at hdisj
      have hselflt : selfRank < (partition_parameters ws groups).length := by
        rw [hlen]; exact hself
      have hmem_self : p.pid ∈ (List.map Param.pid ∘ groupFlat)
          ((partition_parameters ws groups)[selfRank]) := by
        rw [← List.getD_eq_getElem _ ([] : List (ParamGroup H)) hselflt]
        exact List.mem_map_of_mem _ hmem
      have hmem_r : p.pid ∈ (List.map Param.pid ∘ groupFlat)
          ((partition_parameters ws groups)[rp.1]) := by
        rw [hrpval, ← hpid]
        exact List.mem_map_of_mem _ hp'blk
      rcases Nat.lt_trichotomy selfRank rp.1 with hlt | heq | hgt
      · have hd := hdisj selfRank rp.1 (by simpa using hselflt) (by simpa using hrplt) hlt
        rw [List.getElem_map, List.getElem_map] at hd
        exact hd hmem_self hmem_r
      · exact hrpne heq.symm
      · have hd := hdisj rp.1 selfRank (by simpa using hrplt) (by simpa using hselflt) hgt
        rw [List.getElem_map, List.getElem_map] at hd
        exact hd hmem_r hmem_self

theorem free_other_grads_frame_witness :
    free_other_grads 0
        (partition_parameters 2 [ParamGroup.mk [⟨0, 10⟩, ⟨1, 1⟩, ⟨2, 1⟩] (0 : Nat)])
        (fun _ => some (7 : Nat)) (Param.mk 1 1).pid = none ∧
    free_other_grads 0
        (partition_parameters 2 [ParamGroup.mk [⟨0, 10⟩, ⟨1, 1⟩, ⟨2, 1⟩] (0 : Nat)])
        (fun _ => some (7 : Nat)) (Param.mk 0 10).pid = some 7 :=
  ⟨(free_other_grads_frame 2 (by decide)
      [ParamGroup.mk [⟨0, 10⟩, ⟨1, 1⟩, ⟨2, 1⟩] (0 : Nat)] 0 (by decide) (by decide)
      (fun _ => some (7 : Nat)) (Param.mk 1 1)).1 1 (by decide) (by decide) (by decide),
   (free_other_grads_frame 2 (by decide)
      [ParamGroup.mk [⟨0, 10⟩, ⟨1, 1⟩, ⟨2, 1⟩] (0 : Nat)] 0 (by decide) (by decide)
      (fun _ => some (7 : Nat)) (Param.mk 0 10)).2 (by decide)⟩
